import Mathlib

/-!
Verification of the final-ride content-protection and chunked-transfer core.

The definitions below are a shallow embedding of the Go source:
  * `SplitIntoChunks` / `ReassembleChunks` from `internal/finalride` (chunking file),
  * `EncryptData` / `DecryptData` from `internal/finalride` (crypto file),
  * `Metadata` and its JSON marshalling from `internal/finalride/types.go`,
  * the CLI download pipeline from `cmd/cli/main.go`.
Go byte slices become `List Byte`, Go maps become association lists with
distinct keys (one fixed linearisation of the unspecified Go map iteration
order; every modelled algorithm is order-independent, which is proved where a
claim needs it), fallible code returns `Except`/`Option`, and the
possibly-nonterminating split loop is given fuel-based small-step semantics so
that divergence and panics are expressible.
-/

/-- Go `byte` values; the claims never depend on the 0..255 range, so a plain
natural number is used. -/
abbrev Byte := Nat

/- ### Decimal strings: `fmt.Sprintf("%d", _)`, `strconv.Itoa`, `strconv.Atoi` -/

/-- The ASCII character of a single decimal digit (`d < 10` in all uses). -/
def digitChar (d : Nat) : Char := Char.ofNat (48 + d)

/-- Little-endian decimal digits of a positive number, by repeated division;
structural on the fuel so that concrete keys evaluate inside the kernel. -/
def decDigitsAux : Nat → Nat → List Nat
  | 0, _ => []
  | fuel + 1, n => if n = 0 then [] else (n % 10) :: decDigitsAux fuel (n / 10)

/-- Decimal digits of `n`, most significant first; `0` is rendered as `[0]`,
matching `fmt.Sprintf("%d", 0) = "0"`. -/
def decDigits (n : Nat) : List Nat :=
  if n = 0 then [0] else (decDigitsAux n n).reverse

/-- Model of `fmt.Sprintf("%d", n)` / `strconv.Itoa(n)` for a nonnegative
integer: the canonical decimal string. -/
def natToString (n : Nat) : String := String.mk ((decDigits n).map digitChar)

/-- Model of `strconv.Itoa(k)` on a Go `int`. -/
def intToString (k : Int) : String :=
  if k < 0 then "-" ++ natToString (-k).toNat else natToString k.toNat

/-- Parse a single ASCII decimal digit. -/
def charDigit? (c : Char) : Option Nat :=
  if '0' ≤ c ∧ c ≤ '9' then some (c.toNat - 48) else none

/-- Accumulating decimal parse of a digit run; fails on the first non-digit. -/
def parseDigitsAux : List Char → Nat → Option Nat
  | [], acc => some acc
  | c :: cs, acc =>
    match charDigit? c with
    | some d => parseDigitsAux cs (acc * 10 + d)
    | none => none

/-- Parse a nonempty all-digit character run to its value. -/
def parseDigits? : List Char → Option Nat
  | [] => none
  | l => parseDigitsAux l 0

/-- Model of `num, _ := strconv.Atoi(k)` as used in `ReassembleChunks`:
optional sign followed by one or more digits parses to the value, anything
else (including the empty string) leaves `num` at its zero value `0`.
The 64-bit range clamping of `strconv.Atoi` is not modelled; no claim
involves 19-digit keys. -/
def goAtoi (s : String) : Int :=
  match s.data with
  | [] => 0
  | c :: rest =>
    if c = '-' then
      match parseDigits? rest with
      | some n => -(n : Int)
      | none => 0
    else if c = '+' then
      match parseDigits? rest with
      | some n => (n : Int)
      | none => 0
    else
      match parseDigits? (c :: rest) with
      | some n => (n : Int)
      | none => 0

/- ### Go maps as association lists -/

/-- Lookup in a Go-map snapshot (`m[k]` for present keys; all modelled maps
have distinct keys, so first-match lookup is exact). -/
def goLookup {α : Type} : List (String × α) → String → Option α
  | [], _ => none
  | (k, v) :: rest, s => if k = s then some v else goLookup rest s

/- ### Chunker: `SplitIntoChunks` and `ReassembleChunks` -/

/-- Outcome of running the split loop under a fuel bound. `fuelOut` means the
loop was still running when the fuel ran out (used to prove divergence for
`chunkSize = 0`: the loop yields `fuelOut` at every fuel). -/
inductive SplitResult where
  | ok (chunks : List (String × List Byte)) (hashes : List (String × String))
  | panics
  | fuelOut
deriving DecidableEq

/-- Go slice expression `data[lo:hi]`: defined when `0 ≤ lo ≤ hi ≤ len(data)`,
otherwise a runtime panic (`none`). -/
def goSlice (data : List Byte) (lo hi : Int) : Option (List Byte) :=
  if 0 ≤ lo ∧ lo ≤ hi ∧ hi ≤ (data.length : Int) then
    some ((data.take hi.toNat).drop lo.toNat)
  else none

/-- One-to-one fuel-indexed embedding of the loop
`for i := 0; i < len(data); i += chunkSize` in `SplitIntoChunks`: computes
`end`, clamps it to `len(data)`, slices the chunk, records it and its digest
under the key `fmt.Sprintf("%d", chunkNum)`, and advances `i` by `chunkSize`.
The digest function (`sha256` hex in the source, an external library) is a
parameter. -/
def splitLoop (hash : List Byte → String) (data : List Byte) (chunkSize : Int) :
    Nat → Int → Nat → List (String × List Byte) → List (String × String) → SplitResult
  | 0, _, _, _, _ => .fuelOut
  | fuel + 1, i, chunkNum, accC, accH =>
    if i < (data.length : Int) then
      let e0 := i + chunkSize
      let e1 := if e0 > (data.length : Int) then (data.length : Int) else e0
      match goSlice data i e1 with
      | none => .panics
      | some chunk =>
        let chunkKey := natToString chunkNum
        splitLoop hash data chunkSize fuel (i + chunkSize) (chunkNum + 1)
          (accC ++ [(chunkKey, chunk)]) (accH ++ [(chunkKey, hash chunk)])
    else .ok accC accH

/-- Model of `SplitIntoChunks(data, chunkSize)`. The fuel `data.length + 1`
covers every terminating execution (each iteration with positive `chunkSize`
consumes at least one byte); for `chunkSize = 0` on nonempty data the result
is `fuelOut`, and `splitLoop_zero_diverges` below shows the Go loop never
terminates there at any fuel. -/
def SplitIntoChunks (hash : List Byte → String) (data : List Byte) (chunkSize : Int) :
    SplitResult :=
  splitLoop hash data chunkSize (data.length + 1) 0 1 [] []

/-- Model of `ReassembleChunks(chunks)`: collect `strconv.Atoi` of every key
(parse errors yield 0), sort the integers ascending (`sort.Ints`; any correct
sort of integers produces the same list, so insertion sort is a faithful
model), then concatenate `chunks[strconv.Itoa(k)]` in that order (a missing
key contributes nothing, as appending a nil Go slice does). -/
def ReassembleChunks (chunks : List (String × List Byte)) : List Byte :=
  let keys := chunks.map (fun e => goAtoi e.1)
  let sorted := List.insertionSort (fun a b => a ≤ b) keys
  sorted.foldl (fun acc k => acc ++ ((goLookup chunks (intToString k)).getD [])) []

/- ### Mathematical description of the split, used to state and prove claims -/

/-- The windows of `data` walked left to right in `sz`-sized steps (final
window may be shorter). This is the specification-side description of the
chunk contents; `splitLoop_ok` proves the source loop produces exactly these. -/
def chunksList (data : List Byte) (sz : Nat) : List (List Byte) :=
  if h : data = [] ∨ sz = 0 then []
  else data.take sz :: chunksList (data.drop sz) sz
termination_by data.length
decreasing_by
  push_neg at h
  have h1 : 0 < data.length := List.length_pos.mpr h.1
  have h2 : 0 < sz := Nat.pos_of_ne_zero h.2
  simp only [List.length_drop]
  omega

/-- Attach the keys `natToString c, natToString (c+1), ...` to a list of
values, as the split loop does starting from `chunkNum = c`. -/
def keyed {α : Type} (c : Nat) : List α → List (String × α)
  | [] => []
  | x :: xs => (natToString c, x) :: keyed (c + 1) xs

/- ### Cipher: `EncryptData` and `DecryptData` -/

/-- Error kinds of the cipher layer, distinguishing the Go error paths:
`invalidKeySize` from `aes.NewCipher`, `malformedEnvelope` from the explicit
`len(encryptedData) < 12` check, `authFailed` from `aesgcm.Open`. -/
inductive CryptoErr where
  | invalidKeySize
  | malformedEnvelope
  | authFailed
deriving DecidableEq

/-- `aes.NewCipher(key)` succeeds exactly for AES key sizes 16, 24, 32. -/
def keyOk (key : List Byte) : Bool :=
  key.length == 16 || key.length == 24 || key.length == 32

/-- Abstract interface of the Go standard library AES-GCM AEAD
(`cipher.NewGCM(aes)`), which is external to this repository. `gcmSeal` is
`aesgcm.Seal(nil, nonce, plaintext, nil)` and `gcmOpen` is
`aesgcm.Open(nil, nonce, ciphertext, nil)`; the two `Prop` fields are the
documented library contract: `Seal` appends the 16-byte GCM tag, and `Open`
inverts `Seal` under the same key and nonce. -/
structure AEAD where
  gcmSeal : List Byte → List Byte → List Byte → List Byte
  gcmOpen : List Byte → List Byte → List Byte → Option (List Byte)
  gcmSeal_length : ∀ k n p, (gcmSeal k n p).length = p.length + 16
  gcmOpen_seal : ∀ k n p, gcmOpen k n (gcmSeal k n p) = some p

/-- Model of `EncryptData(plaintext, key)`. The fresh 12-byte random nonce the
source draws from `rand.Reader` is passed as the `nonce` argument; theorems
that need it assume `nonce.length = 12`. On success the envelope is
`nonce || ciphertext_with_tag`, i.e. `append(nonce, ciphertext...)`. -/
def EncryptData (G : AEAD) (plaintext key nonce : List Byte) :
    Except CryptoErr (List Byte) :=
  if keyOk key then .ok (nonce ++ G.gcmSeal key nonce plaintext)
  else .error .invalidKeySize

/-- Model of `DecryptData(encryptedData, key)`: the length guard first, then
`aes.NewCipher`, then `aesgcm.Open` on `encryptedData[:12]` and
`encryptedData[12:]`. -/
def DecryptData (G : AEAD) (encryptedData key : List Byte) :
    Except CryptoErr (List Byte) :=
  if encryptedData.length < 12 then .error .malformedEnvelope
  else if keyOk key then
    match G.gcmOpen key (encryptedData.take 12) (encryptedData.drop 12) with
    | some p => .ok p
    | none => .error .authFailed
  else .error .invalidKeySize

/-- A concrete computable instance of the AEAD contract (ciphertext is the
plaintext followed by a 16-byte tag of zeros), used only to instantiate
witnesses of theorems quantified over `AEAD`. -/
def padAEAD : AEAD where
  gcmSeal := fun _ _ p => p ++ List.replicate 16 0
  gcmOpen := fun _ _ c =>
    if 16 ≤ c.length then some (c.take (c.length - 16)) else none
  gcmSeal_length := by intro k n p; simp
  gcmOpen_seal := by
    intro k n p
    have hlen : (p ++ List.replicate 16 0).length = p.length + 16 := by simp
    simp only [hlen]
    rw [if_pos (by omega)]
    have : p.length + 16 - 16 = p.length := by omega
    rw [this]
    have := List.take_left p (List.replicate 16 (0 : Byte))
    simp [this]

/- ### Transfer manifest: `Metadata` and its JSON form -/

/-- The `Metadata` struct of `internal/finalride/types.go`. Absent optional
fields hold their Go zero values (empty string / empty map, with Go's nil and
empty maps identified as `[]`). -/
structure Metadata where
  filename : String
  encrypted : Bool
  key : String
  chunked : Bool
  fileID : String
  chunkIDs : List (String × String)
  chunkHashes : List (String × String)
  fileHash : String
deriving DecidableEq

/-- JSON values occurring in a serialized manifest. -/
inductive JVal where
  | jstr (s : String)
  | jbool (b : Bool)
  | jmap (entries : List (String × String))
deriving DecidableEq

/-- An `omitempty` field: omitted from the document exactly when its value is
empty (`omitIt = true`). -/
def optEntry (omitIt : Bool) (name : String) (v : JVal) : List (String × JVal) :=
  if omitIt then [] else [(name, v)]

/-- Model of `json.Marshal` on `Metadata`: fields in struct order;
`filename`, `encrypted` and `chunked` always present; the five
`omitempty`-tagged fields present exactly when their value is nonempty. -/
def marshalMetadata (m : Metadata) : List (String × JVal) :=
  [("filename", .jstr m.filename), ("encrypted", .jbool m.encrypted)]
    ++ optEntry (m.key == "") "key" (.jstr m.key)
    ++ [("chunked", .jbool m.chunked)]
    ++ optEntry (m.fileID == "") "file_id" (.jstr m.fileID)
    ++ optEntry (m.chunkIDs == []) "chunk_ids" (.jmap m.chunkIDs)
    ++ optEntry (m.chunkHashes == []) "chunk_hashes" (.jmap m.chunkHashes)
    ++ optEntry (m.fileHash == "") "file_hash" (.jstr m.fileHash)

/-- Lookup of a field in a serialized document. -/
def jField : List (String × JVal) → String → Option JVal
  | [], _ => none
  | (k, v) :: rest, s => if k = s then some v else jField rest s

/-- String field with Go zero value for an absent field. -/
def jGetStr (doc : List (String × JVal)) (name : String) : String :=
  match jField doc name with
  | some (.jstr s) => s
  | _ => ""

/-- Bool field with Go zero value for an absent field. -/
def jGetBool (doc : List (String × JVal)) (name : String) : Bool :=
  match jField doc name with
  | some (.jbool b) => b
  | _ => false

/-- Map field with Go zero value (nil map, modelled `[]`) for an absent field. -/
def jGetMap (doc : List (String × JVal)) (name : String) : List (String × String) :=
  match jField doc name with
  | some (.jmap es) => es
  | _ => []

/-- Model of `json.Unmarshal` into `Metadata`: each field from the document,
Go zero values for absent fields. -/
def unmarshalMetadata (doc : List (String × JVal)) : Metadata where
  filename := jGetStr doc "filename"
  encrypted := jGetBool doc "encrypted"
  key := jGetStr doc "key"
  chunked := jGetBool doc "chunked"
  fileID := jGetStr doc "file_id"
  chunkIDs := jGetMap doc "chunk_ids"
  chunkHashes := jGetMap doc "chunk_hashes"
  fileHash := jGetStr doc "file_hash"

/- ### CLI download pipeline (`cmd/cli/main.go`, download branch) -/

/-- Failure modes of the download pipeline after the manifest has been
deserialized. The source has no manifest-validation error of any kind: every
constructor below corresponds to a `log.Fatalf` site in `cmd/cli/main.go`. -/
inductive DlErr where
  | fetchFailed (ref : String)
  | integrityFailed (k : String)
  | keyDecodeFailed
  | decryptFailed
deriving DecidableEq

/-- The per-chunk download loop: fetch each reference, recompute the digest
and compare it with `metadata.ChunkHashes[k]` (a missing entry reads as the
empty string, as a missing Go map key does), collecting the chunk map. The
unspecified Go map iteration order is linearised as the list order. -/
def fetchChunks (hash : List Byte → String) (fetch : String → Option (List Byte))
    (chunkHashes : List (String × String)) :
    List (String × String) → Except DlErr (List (String × List Byte))
  | [] => .ok []
  | (k, ref) :: rest =>
    match fetch ref with
    | none => .error (.fetchFailed ref)
    | some chunkData =>
      if (goLookup chunkHashes k).getD "" = hash chunkData then
        (fetchChunks hash fetch chunkHashes rest).map (fun tl => (k, chunkData) :: tl)
      else .error (.integrityFailed k)

/-- The download pipeline of `cmd/cli/main.go` after the manifest is parsed:
if `chunked`, fetch and verify every chunk then `ReassembleChunks`; otherwise
fetch `file_id` and verify `file_hash`; then, if `encrypted`, base64-decode
the key (decoder passed as `b64`, an external library) and `DecryptData`.
No validation of the manifest happens anywhere on this path. -/
def runDownload (G : AEAD) (hash : List Byte → String)
    (b64 : String → Option (List Byte)) (fetch : String → Option (List Byte))
    (m : Metadata) : Except DlErr (List Byte) :=
  (if m.chunked then
    (fetchChunks hash fetch m.chunkHashes m.chunkIDs).map ReassembleChunks
   else
    match fetch m.fileID with
    | none => .error (.fetchFailed m.fileID)
    | some d => if m.fileHash = hash d then .ok d else .error (.integrityFailed "file")
  ).bind fun downloaded =>
    if m.encrypted then
      match b64 m.key with
      | none => .error .keyDecodeFailed
      | some keyBytes =>
        match DecryptData G downloaded keyBytes with
        | .ok p => .ok p
        | .error _ => .error .decryptFailed
    else .ok downloaded

/-- Specification of a successful split, as the claims state it: piece keys
count up from "1" in walk order, one digest per piece under the same key,
every piece except possibly the last exactly `s` bytes, the last piece
nonempty and at most `s` bytes, the empty payload gives the empty mapping,
and a 25,000,000-byte payload with `s = 10,000,000` yields exactly three
pieces of sizes 10,000,000, 10,000,000 and 5,000,000 with three digests. -/
def SplitSpec (s : Nat) (p : List Byte) (chunks : List (String × List Byte))
    (hashes : List (String × String)) : Prop :=
  chunks.map Prod.fst = (List.range chunks.length).map (fun t => natToString (t + 1))
  ∧ hashes.map Prod.fst = chunks.map Prod.fst
  ∧ (∀ e ∈ chunks.dropLast, (e.2).length = s)
  ∧ (∀ e, chunks.getLast? = some e → e.2 ≠ [] ∧ e.2.length ≤ s)
  ∧ (p = [] → chunks = [] ∧ hashes = [])
  ∧ (p.length = 25000000 → s = 10000000 →
      ∃ p1 p2 p3,
        chunks = [(natToString 1, p1), (natToString 2, p2), (natToString 3, p3)]
        ∧ p1.length = 10000000 ∧ p2.length = 10000000 ∧ p3.length = 5000000
        ∧ hashes.length = 3)

/- ### Lemmas: decimal strings -/

theorem charDigit?_digitChar {d : Nat} (h : d < 10) :
    charDigit? (digitChar d) = some d := by
  interval_cases d <;> decide

theorem digitChar_ne_sign {d : Nat} (h : d < 10) :
    digitChar d ≠ '-' ∧ digitChar d ≠ '+' := by
  interval_cases d <;> exact ⟨by decide, by decide⟩

theorem parseDigitsAux_map {L : List Nat} (hL : ∀ d ∈ L, d < 10) :
    ∀ acc, parseDigitsAux (L.map digitChar) acc =
      some (acc * 10 ^ L.length + Nat.ofDigits 10 L.reverse) := by
  induction L with
  | nil => intro acc; simp [parseDigitsAux, Nat.ofDigits]
  | cons d ds ih =>
    intro acc
    have hd : d < 10 := hL d (by simp)
    have hds : ∀ x ∈ ds, x < 10 := fun x hx => hL x (by simp [hx])
    simp only [List.map_cons, parseDigitsAux, charDigit?_digitChar hd]
    rw [ih hds]
    congr 1
    have : (d :: ds).reverse = ds.reverse ++ [d] := by simp
    rw [this, Nat.ofDigits_append]
    simp [Nat.ofDigits]
    ring

theorem decDigitsAux_eq_digits : ∀ fuel n, n ≤ fuel → decDigitsAux fuel n = Nat.digits 10 n := by
  intro fuel
  induction fuel with
  | zero =>
    intro n hn
    have hn0 : n = 0 := by omega
    simp [hn0, decDigitsAux]
  | succ fuel ih =>
    intro n hn
    by_cases h : n = 0
    · simp [h, decDigitsAux]
    · simp only [decDigitsAux]
      rw [if_neg h]
      have hdiv : n / 10 ≤ fuel := by
        have := Nat.div_lt_self (Nat.pos_of_ne_zero h) (by norm_num : 1 < 10)
        omega
      rw [ih (n / 10) hdiv]
      rw [Nat.digits_def' (by norm_num : (1 : Nat) < 10) (Nat.pos_of_ne_zero h)]

theorem decDigits_eq (n : Nat) :
    decDigits n = if n = 0 then [0] else (Nat.digits 10 n).reverse := by
  unfold decDigits
  by_cases h : n = 0
  · simp [h]
  · rw [if_neg h, if_neg h, decDigitsAux_eq_digits n n le_rfl]

theorem decDigits_lt (n : Nat) : ∀ d ∈ decDigits n, d < 10 := by
  intro d hd
  rw [decDigits_eq] at hd
  by_cases h : n = 0
  · simp [h] at hd; omega
  · rw [if_neg h] at hd
    exact Nat.digits_lt_base (by norm_num) (List.mem_reverse.mp hd)

theorem decDigits_ne_nil (n : Nat) : decDigits n ≠ [] := by
  rw [decDigits_eq]
  by_cases h : n = 0
  · simp [h]
  · rw [if_neg h]
    simp only [ne_eq, List.reverse_eq_nil_iff]
    exact Nat.digits_ne_nil_iff_ne_zero.mpr h

theorem ofDigits_decDigits (n : Nat) :
    Nat.ofDigits 10 (decDigits n).reverse = n := by
  rw [decDigits_eq]
  by_cases h : n = 0
  · simp [h, Nat.ofDigits]
  · rw [if_neg h, List.reverse_reverse, Nat.ofDigits_digits]

theorem goAtoi_natToString (n : Nat) : goAtoi (natToString n) = (n : Int) := by
  unfold goAtoi natToString
  obtain ⟨d0, ds, hds⟩ : ∃ d0 ds, decDigits n = d0 :: ds := by
    cases h : decDigits n with
    | nil => exact absurd h (decDigits_ne_nil n)
    | cons a l => exact ⟨a, l, rfl⟩
  have hd0 : d0 < 10 := decDigits_lt n d0 (by rw [hds]; simp)
  have hsign := digitChar_ne_sign hd0
  rw [hds]
  simp only [List.map_cons, String.data]
  rw [if_neg hsign.1, if_neg hsign.2]
  have hparse : parseDigits? (digitChar d0 :: ds.map digitChar) =
      parseDigitsAux (digitChar d0 :: ds.map digitChar) 0 := rfl
  rw [hparse]
  have : digitChar d0 :: ds.map digitChar = (d0 :: ds).map digitChar := by simp
  rw [this, parseDigitsAux_map (by rw [← hds]; exact decDigits_lt n)]
  rw [← hds, ofDigits_decDigits]
  simp

theorem natToString_injective : Function.Injective natToString := by
  intro a b hab
  have ha := goAtoi_natToString a
  have hb := goAtoi_natToString b
  rw [hab, hb] at ha
  exact_mod_cast ha.symm

theorem intToString_natCast (n : Nat) : intToString (n : Int) = natToString n := by
  unfold intToString
  rw [if_neg (by omega)]
  simp

/- ### Lemmas: `keyed` and `goLookup` -/

theorem keyed_map_fst {α : Type} (cl : List α) :
    ∀ c, (keyed c cl).map Prod.fst =
      (List.range cl.length).map (fun t => natToString (c + t)) := by
  induction cl with
  | nil => intro c; simp [keyed]
  | cons x xs ih =>
    intro c
    simp only [keyed, List.map_cons, List.length_cons, List.range_succ_eq_map,
      List.map_map, ih (c + 1)]
    congr 1
    apply List.map_congr_left
    intro t _
    have hct : c + 1 + t = c + (t + 1) := by omega
    simp [Function.comp, hct]

theorem keyed_map_snd {α : Type} (cl : List α) :
    ∀ c, (keyed c cl).map Prod.snd = cl := by
  induction cl with
  | nil => intro c; simp [keyed]
  | cons x xs ih => intro c; simp [keyed, ih (c + 1)]

theorem keyed_length {α : Type} (cl : List α) (c : Nat) :
    (keyed c cl).length = cl.length := by
  have := congrArg List.length (keyed_map_snd cl c)
  simpa using this

theorem goLookup_keyed {α : Type} (x₀ : α) (cl : List α) :
    ∀ c t, t < cl.length →
      goLookup (keyed c cl) (natToString (c + t)) = some (cl.getD t x₀) := by
  induction cl with
  | nil => intro c t ht; simp at ht
  | cons x xs ih =>
    intro c t ht
    cases t with
    | zero => simp [keyed, goLookup]
    | succ t =>
      have hne : natToString c ≠ natToString (c + (t + 1)) := by
        intro h
        have := natToString_injective h
        omega
      simp only [keyed, goLookup, if_neg hne, List.getD_cons_succ]
      have : c + (t + 1) = (c + 1) + t := by omega
      rw [this]
      exact ih (c + 1) t (by simpa using ht)

theorem map_range_getD {α : Type} (x₀ : α) (cl : List α) :
    (List.range cl.length).map (fun t => cl.getD t x₀) = cl := by
  induction cl with
  | nil => simp
  | cons x xs ih =>
    have h1 : (x :: xs).length = xs.length + 1 := rfl
    rw [h1, List.range_succ_eq_map, List.map_cons, List.map_map]
    have h3 : (List.range xs.length).map ((fun t => (x :: xs).getD t x₀) ∘ Nat.succ)
        = (List.range xs.length).map (fun t => xs.getD t x₀) :=
      List.map_congr_left (fun t _ => rfl)
    rw [h3, ih]
    rfl

/- ### Lemmas: `chunksList` -/

theorem chunksList_nil (sz : Nat) : chunksList [] sz = [] := by
  rw [chunksList]; simp

theorem chunksList_cons (data : List Byte) (sz : Nat) (hd : data ≠ []) (hs : sz ≠ 0) :
    chunksList data sz = data.take sz :: chunksList (data.drop sz) sz := by
  rw [chunksList]
  simp [hd, hs]

theorem chunksList_join_aux (sz : Nat) (hsz : 1 ≤ sz) :
    ∀ n (data : List Byte), data.length ≤ n → (chunksList data sz).flatten = data := by
  intro n
  induction n with
  | zero =>
    intro data hlen
    have : data = [] := List.length_eq_zero.mp (by omega)
    simp [this, chunksList_nil]
  | succ n ih =>
    intro data hlen
    by_cases hd : data = []
    · simp [hd, chunksList_nil]
    · rw [chunksList_cons data sz hd (by omega)]
      have hdl : 0 < data.length := List.length_pos.mpr hd
      have : (data.drop sz).length ≤ n := by
        simp only [List.length_drop]; omega
      rw [List.flatten_cons, ih (data.drop sz) this, List.take_append_drop]

theorem chunksList_join (data : List Byte) (sz : Nat) (hsz : 1 ≤ sz) :
    (chunksList data sz).flatten = data :=
  chunksList_join_aux sz hsz data.length data le_rfl

theorem chunksList_mem_aux (sz : Nat) (hsz : 1 ≤ sz) :
    ∀ n (data : List Byte), data.length ≤ n →
      ∀ l ∈ chunksList data sz, l ≠ [] ∧ l.length ≤ sz := by
  intro n
  induction n with
  | zero =>
    intro data hlen l hl
    have : data = [] := List.length_eq_zero.mp (by omega)
    rw [this, chunksList_nil] at hl
    simp at hl
  | succ n ih =>
    intro data hlen l hl
    by_cases hd : data = []
    · rw [hd, chunksList_nil] at hl; simp at hl
    · rw [chunksList_cons data sz hd (by omega)] at hl
      have hdl : 0 < data.length := List.length_pos.mpr hd
      rcases List.mem_cons.mp hl with h | h
      · subst h
        constructor
        · intro hc
          have := congrArg List.length hc
          simp only [List.length_take, List.length_nil] at this
          omega
        · simp
      · exact ih (data.drop sz) (by simp only [List.length_drop]; omega) l h

theorem chunksList_mem (data : List Byte) (sz : Nat) (hsz : 1 ≤ sz) :
    ∀ l ∈ chunksList data sz, l ≠ [] ∧ l.length ≤ sz :=
  chunksList_mem_aux sz hsz data.length data le_rfl

theorem chunksList_dropLast_aux (sz : Nat) (hsz : 1 ≤ sz) :
    ∀ n (data : List Byte), data.length ≤ n →
      ∀ l ∈ (chunksList data sz).dropLast, l.length = sz := by
  intro n
  induction n with
  | zero =>
    intro data hlen l hl
    have : data = [] := List.length_eq_zero.mp (by omega)
    rw [this, chunksList_nil] at hl
    simp at hl
  | succ n ih =>
    intro data hlen l hl
    by_cases hd : data = []
    · rw [hd, chunksList_nil] at hl; simp at hl
    · rw [chunksList_cons data sz hd (by omega)] at hl
      have hdl : 0 < data.length := List.length_pos.mpr hd
      by_cases hrest : chunksList (data.drop sz) sz = []
      · rw [hrest] at hl
        simp at hl
      · rw [List.dropLast_cons_of_ne_nil hrest] at hl
        rcases List.mem_cons.mp hl with h | h
        · subst h
          have hdrop : data.drop sz ≠ [] := by
            intro hcon
            rw [hcon, chunksList_nil] at hrest
            exact hrest rfl
          have : sz < data.length := by
            by_contra hle
            exact hdrop (List.drop_eq_nil_of_le (by omega))
          simp only [List.length_take]
          omega
        · exact ih (data.drop sz) (by simp only [List.length_drop]; omega) l
            (by exact h)

theorem chunksList_dropLast (data : List Byte) (sz : Nat) (hsz : 1 ≤ sz) :
    ∀ l ∈ (chunksList data sz).dropLast, l.length = sz :=
  chunksList_dropLast_aux sz hsz data.length data le_rfl

theorem chunksList_ne_nil (data : List Byte) (sz : Nat) (hd : data ≠ []) (hsz : 1 ≤ sz) :
    chunksList data sz ≠ [] := by
  rw [chunksList_cons data sz hd (by omega)]
  simp

/- ### Lemmas: the split loop computes `chunksList` -/

theorem goSlice_eval (data : List Byte) (j sz : Nat) (hj : j < data.length)
    (hsz : 1 ≤ sz) :
    goSlice data (j : Int)
      (if (j : Int) + (sz : Int) > (data.length : Int) then (data.length : Int)
       else (j : Int) + (sz : Int))
      = some ((data.drop j).take sz) := by
  unfold goSlice
  by_cases hcl : (j : Int) + (sz : Int) > (data.length : Int)
  · rw [if_pos hcl]
    rw [if_pos ⟨by omega, by omega, by omega⟩]
    have h1 : ((data.length : Int)).toNat = data.length := by omega
    have h2 : ((j : Int)).toNat = j := by omega
    rw [h1, h2, List.take_length]
    have h3 : (data.drop j).length ≤ sz := by
      simp only [List.length_drop]; omega
    rw [List.take_of_length_le h3]
  · rw [if_neg hcl]
    rw [if_pos ⟨by omega, by omega, by omega⟩]
    have h1 : ((j : Int) + (sz : Int)).toNat = j + sz := by omega
    have h2 : ((j : Int)).toNat = j := by omega
    have h4 : j + sz - j = sz := by omega
    rw [h1, h2, List.drop_take, h4]

theorem splitLoop_ok (hash : List Byte → String) (data : List Byte) (sz : Nat)
    (hsz : 1 ≤ sz) :
    ∀ (fuel j c : Nat) accC accH, data.length - j + 1 ≤ fuel →
      splitLoop hash data (sz : Int) fuel (j : Int) c accC accH =
        .ok (accC ++ keyed c (chunksList (data.drop j) sz))
            (accH ++ keyed c ((chunksList (data.drop j) sz).map hash)) := by
  intro fuel
  induction fuel with
  | zero => intro j c accC accH hf; omega
  | succ fuel ih =>
    intro j c accC accH hf
    by_cases hj : j < data.length
    · simp only [splitLoop]
      rw [if_pos (by exact_mod_cast hj)]
      have hslice := goSlice_eval data j sz hj hsz
      simp only [hslice]
      have hcast : (j : Int) + (sz : Int) = ((j + sz : Nat) : Int) := by push_cast; ring
      rw [hcast, ih (j + sz) (c + 1) _ _ (by omega)]
      have hdropj : data.drop j ≠ [] := by
        rw [← List.length_pos]
        simp only [List.length_drop]
        omega
      have hstep : chunksList (data.drop j) sz =
          (data.drop j).take sz :: chunksList (data.drop (j + sz)) sz := by
        rw [chunksList_cons (data.drop j) sz hdropj (by omega), List.drop_drop]
      rw [hstep]
      simp [keyed, List.append_assoc]
    · simp only [splitLoop]
      rw [if_neg (by exact_mod_cast hj)]
      have hdrop : data.drop j = [] := List.drop_eq_nil_of_le (by omega)
      rw [hdrop, chunksList_nil]
      simp [keyed]

theorem SplitIntoChunks_ok (hash : List Byte → String) (data : List Byte) (sz : Nat)
    (hsz : 1 ≤ sz) :
    SplitIntoChunks hash data (sz : Int) =
      .ok (keyed 1 (chunksList data sz))
          (keyed 1 ((chunksList data sz).map hash)) := by
  unfold SplitIntoChunks
  have h0 : ((0 : Nat) : Int) = (0 : Int) := rfl
  have := splitLoop_ok hash data sz hsz (data.length + 1) 0 1 [] [] (by omega)
  rw [h0] at this
  simpa using this

/- ### Lemmas: `ReassembleChunks` on canonically keyed maps -/

theorem foldl_append_map {ι : Type} (g : ι → List Byte) :
    ∀ (l : List ι) (a : List Byte),
      l.foldl (fun acc k => acc ++ g k) a = a ++ (l.map g).flatten := by
  intro l
  induction l with
  | nil => intro a; simp
  | cons x xs ih => intro a; simp [ih, List.append_assoc]

theorem ReassembleChunks_keyed (cl : List (List Byte)) :
    ReassembleChunks (keyed 1 cl) = cl.flatten := by
  have hkeys : (keyed 1 cl).map (fun e => goAtoi e.1) =
      (List.range cl.length).map (fun t => ((1 + t : Nat) : Int)) := by
    have h1 : (keyed 1 cl).map (fun e => goAtoi e.1) =
        ((keyed 1 cl).map Prod.fst).map goAtoi := by
      rw [List.map_map]; rfl
    rw [h1, keyed_map_fst, List.map_map]
    apply List.map_congr_left
    intro t _
    simp [Function.comp, goAtoi_natToString]
  have hsorted : List.Sorted (fun a b : Int => a ≤ b)
      ((List.range cl.length).map (fun t => ((1 + t : Nat) : Int))) := by
    rw [List.Sorted]
    apply List.Pairwise.map (R := fun a b : Nat => a < b)
    · intro a b hab
      push_cast
      omega
    · exact List.pairwise_lt_range cl.length
  simp only [ReassembleChunks, hkeys]
  rw [List.Sorted.insertionSort_eq hsorted, foldl_append_map, List.map_map]
  have hmap : (List.range cl.length).map
      ((fun k => (goLookup (keyed 1 cl) (intToString k)).getD []) ∘
        (fun t => ((1 + t : Nat) : Int))) =
      (List.range cl.length).map (fun t => cl.getD t []) := by
    apply List.map_congr_left
    intro t ht
    have htlt : t < cl.length := List.mem_range.mp ht
    simp only [Function.comp, intToString_natCast]
    rw [goLookup_keyed [] cl 1 t htlt]
    rfl
  rw [hmap, map_range_getD]
  simp

/- ### Lemmas: the split loop on non-positive chunk sizes -/

theorem splitLoop_zero_diverges (hash : List Byte → String) (data : List Byte) :
    ∀ (fuel : Nat) (i : Int) (c : Nat) accC accH, 0 ≤ i → i < (data.length : Int) →
      splitLoop hash data 0 fuel i c accC accH = .fuelOut := by
  intro fuel
  induction fuel with
  | zero => intro i c accC accH h0 hi; rfl
  | succ fuel ih =>
    intro i c accC accH h0 hi
    simp only [splitLoop]
    rw [if_pos hi]
    have he : i + (0 : Int) = i := by ring
    rw [he]
    have hcl : ¬ i > (data.length : Int) := by omega
    rw [if_neg hcl]
    have hslice : goSlice data i i = some ((data.take i.toNat).drop i.toNat) := by
      unfold goSlice
      rw [if_pos ⟨h0, le_refl i, by omega⟩]
    simp only [hslice]
    exact ih i (c + 1) _ _ h0 hi

theorem splitLoop_neg_panics (hash : List Byte → String) (data : List Byte)
    (sz : Int) (hneg : sz < 0) (hd : data ≠ []) (fuel : Nat) accC accH (c : Nat) :
    splitLoop hash data sz (fuel + 1) 0 c accC accH = .panics := by
  simp only [splitLoop]
  have hlen : 0 < data.length := List.length_pos.mpr hd
  rw [if_pos (by exact_mod_cast hlen)]
  have he : (0 : Int) + sz = sz := by ring
  rw [he]
  have hcl : ¬ sz > (data.length : Int) := by omega
  rw [if_neg hcl]
  have hslice : goSlice data 0 sz = none := by
    unfold goSlice
    rw [if_neg (by omega)]
  simp only [hslice]

/- ### Lemmas: `goAtoi` inverts `intToString` -/

theorem parseDigits?_natToString (n : Nat) :
    parseDigits? (natToString n).data = some n := by
  unfold natToString
  obtain ⟨d0, ds, hds⟩ : ∃ d0 ds, decDigits n = d0 :: ds := by
    cases h : decDigits n with
    | nil => exact absurd h (decDigits_ne_nil n)
    | cons a l => exact ⟨a, l, rfl⟩
  rw [hds]
  simp only [List.map_cons, String.data]
  have hparse : parseDigits? (digitChar d0 :: ds.map digitChar) =
      parseDigitsAux (digitChar d0 :: ds.map digitChar) 0 := rfl
  rw [hparse]
  have hmap : digitChar d0 :: ds.map digitChar = (d0 :: ds).map digitChar := by simp
  rw [hmap, parseDigitsAux_map (by rw [← hds]; exact decDigits_lt n)]
  rw [← hds, ofDigits_decDigits]
  simp

theorem goAtoi_intToString (j : Int) : goAtoi (intToString j) = j := by
  by_cases hj : j < 0
  · unfold intToString
    rw [if_pos hj]
    unfold goAtoi
    have hdata : ("-" ++ natToString (-j).toNat).data =
        '-' :: (natToString (-j).toNat).data := by
      rw [String.data_append]
      rfl
    rw [hdata]
    simp only [reduceIte, parseDigits?_natToString]
    omega
  · have hj2 : j = ((j.toNat : Nat) : Int) := by omega
    rw [hj2, intToString_natCast, goAtoi_natToString]

/- ### Lemmas: `goLookup` under permutation and value replacement -/

theorem goLookup_perm {α : Type} :
    ∀ {m1 m2 : List (String × α)}, m1.Perm m2 → (m1.map Prod.fst).Nodup →
      ∀ s, goLookup m1 s = goLookup m2 s := by
  intro m1 m2 h
  induction h with
  | nil => intro _ s; rfl
  | cons x h ih =>
    intro hnd s
    obtain ⟨k, v⟩ := x
    simp only [goLookup]
    by_cases hk : k = s
    · simp [hk]
    · rw [if_neg hk, if_neg hk]
      exact ih (by simp at hnd; exact hnd.2) s
  | swap x y l =>
    intro hnd s
    obtain ⟨kx, vx⟩ := x
    obtain ⟨ky, vy⟩ := y
    have hxy : ky ≠ kx := by
      simp only [List.map_cons, List.nodup_cons, List.mem_cons] at hnd
      exact fun hcon => hnd.1 (Or.inl hcon)
    simp only [goLookup]
    by_cases hx : kx = s
    · by_cases hy : ky = s
      · exact absurd (hy.trans hx.symm) hxy
      · simp [hx, hy]
    · by_cases hy : ky = s
      · simp [hx, hy]
      · simp [hx, hy]
  | trans h1 h2 ih1 ih2 =>
    intro hnd s
    have hndmid := ((h1.map Prod.fst).nodup_iff).mp hnd
    rw [ih1 hnd s, ih2 hndmid s]

theorem goLookup_replace {α : Type} (k : String) (v v' : α) (s : String)
    (hs : s ≠ k) :
    ∀ pre post, goLookup (pre ++ (k, v) :: post) s = goLookup (pre ++ (k, v') :: post) s := by
  intro pre
  induction pre with
  | nil =>
    intro post
    simp only [List.nil_append, goLookup]
    rw [if_neg (fun h => hs h.symm), if_neg (fun h => hs h.symm)]
  | cons e rest ih =>
    intro post
    simp only [List.cons_append, goLookup]
    by_cases he : e.1 = s
    · obtain ⟨k1, v1⟩ := e
      simp only at he
      rw [if_pos he, if_pos he]
    · obtain ⟨k1, v1⟩ := e
      simp only at he
      rw [if_neg he, if_neg he]
      exact ih post

/- ### Lemmas: `ReassembleChunks` under permutation and value replacement -/

theorem ReassembleChunks_perm (m1 m2 : List (String × List Byte)) (h : m1.Perm m2)
    (hnd : (m1.map Prod.fst).Nodup) :
    ReassembleChunks m1 = ReassembleChunks m2 := by
  have hk : (m1.map (fun e => goAtoi e.1)).Perm (m2.map (fun e => goAtoi e.1)) :=
    h.map _
  have hs1 := List.sorted_insertionSort (fun a b : Int => a ≤ b)
    (m1.map (fun e => goAtoi e.1))
  have hs2 := List.sorted_insertionSort (fun a b : Int => a ≤ b)
    (m2.map (fun e => goAtoi e.1))
  have hperm : (List.insertionSort (fun a b : Int => a ≤ b)
      (m1.map (fun e => goAtoi e.1))).Perm
      (List.insertionSort (fun a b : Int => a ≤ b) (m2.map (fun e => goAtoi e.1))) :=
    ((List.perm_insertionSort _ _).trans hk).trans (List.perm_insertionSort _ _).symm
  have heq := List.eq_of_perm_of_sorted hperm hs1 hs2
  simp only [ReassembleChunks, heq]
  rw [foldl_append_map, foldl_append_map]
  have hcong : ∀ kk ∈ List.insertionSort (fun a b : Int => a ≤ b)
      (m2.map (fun e => goAtoi e.1)),
      (goLookup m1 (intToString kk)).getD [] =
        (goLookup m2 (intToString kk)).getD [] := by
    intro kk _
    rw [goLookup_perm h hnd (intToString kk)]
  rw [List.map_congr_left hcong]

theorem ReassembleChunks_nonCanonical (k : String) (v v' : List Byte)
    (hk : intToString (goAtoi k) ≠ k) (pre post : List (String × List Byte)) :
    ReassembleChunks (pre ++ (k, v) :: post) =
      ReassembleChunks (pre ++ (k, v') :: post) := by
  have hfst : (pre ++ (k, v) :: post).map (fun e => goAtoi e.1) =
      (pre ++ (k, v') :: post).map (fun e => goAtoi e.1) := by
    simp
  simp only [ReassembleChunks, hfst]
  rw [foldl_append_map, foldl_append_map]
  simp only [List.nil_append]
  apply congrArg List.flatten
  apply List.map_congr_left
  intro kk _
  have hs : intToString kk ≠ k := by
    intro hcon
    apply hk
    rw [← hcon, goAtoi_intToString]
  rw [goLookup_replace k v v' (intToString kk) hs pre post]

/- ### Lemmas: manifest serialization -/

set_option maxHeartbeats 1000000 in
theorem marshal_roundtrip (m : Metadata) : unmarshalMetadata (marshalMetadata m) = m := by
  obtain ⟨fn, enc, key, ch, fid, cids, chs, fh⟩ := m
  by_cases h1 : key = "" <;> by_cases h2 : fid = "" <;> by_cases h3 : cids = [] <;>
    by_cases h4 : chs = [] <;> by_cases h5 : fh = "" <;>
    simp [unmarshalMetadata, marshalMetadata, optEntry, h1, h2, h3, h4, h5,
      jGetStr, jGetBool, jGetMap, jField]

theorem marshal_key_mem (m : Metadata) :
    ("key" ∈ (marshalMetadata m).map Prod.fst) ↔ m.key ≠ "" := by
  obtain ⟨fn, enc, key, ch, fid, cids, chs, fh⟩ := m
  by_cases h1 : key = "" <;> simp [marshalMetadata, optEntry, h1]

theorem marshal_fileID_mem (m : Metadata) :
    ("file_id" ∈ (marshalMetadata m).map Prod.fst) ↔ m.fileID ≠ "" := by
  obtain ⟨fn, enc, key, ch, fid, cids, chs, fh⟩ := m
  by_cases h2 : fid = "" <;> simp [marshalMetadata, optEntry, h2]

theorem marshal_chunkIDs_mem (m : Metadata) :
    ("chunk_ids" ∈ (marshalMetadata m).map Prod.fst) ↔ m.chunkIDs ≠ [] := by
  obtain ⟨fn, enc, key, ch, fid, cids, chs, fh⟩ := m
  by_cases h3 : cids = [] <;> simp [marshalMetadata, optEntry, h3]

theorem marshal_chunkHashes_mem (m : Metadata) :
    ("chunk_hashes" ∈ (marshalMetadata m).map Prod.fst) ↔ m.chunkHashes ≠ [] := by
  obtain ⟨fn, enc, key, ch, fid, cids, chs, fh⟩ := m
  by_cases h4 : chs = [] <;> simp [marshalMetadata, optEntry, h4]

theorem marshal_fileHash_mem (m : Metadata) :
    ("file_hash" ∈ (marshalMetadata m).map Prod.fst) ↔ m.fileHash ≠ "" := by
  obtain ⟨fn, enc, key, ch, fid, cids, chs, fh⟩ := m
  by_cases h5 : fh = "" <;> simp [marshalMetadata, optEntry, h5]

/- ### Small helpers -/

theorem mem_of_getLast?_eq {α : Type} {l : List α} {x : α}
    (h : l.getLast? = some x) : x ∈ l := by
  have hx : x ∈ l.getLast? := Option.mem_def.mpr h
  obtain ⟨hne, hx2⟩ := List.mem_getLast?_eq_getLast hx
  rw [hx2]
  exact List.getLast_mem hne

theorem chunksList_25MB (data : List Byte) (hlen : data.length = 25000000) :
    ∃ t1 t2 t3, chunksList data 10000000 = [t1, t2, t3] ∧
      t1.length = 10000000 ∧ t2.length = 10000000 ∧ t3.length = 5000000 := by
  have h1 : data ≠ [] := by
    intro h
    rw [h] at hlen
    simp at hlen
  rw [chunksList_cons data _ h1 (by norm_num)]
  have hl2 : (data.drop 10000000).length = 15000000 := by
    simp only [List.length_drop, hlen]
  have h2 : data.drop 10000000 ≠ [] := by
    rw [← List.length_pos, hl2]
    norm_num
  rw [chunksList_cons _ _ h2 (by norm_num)]
  have hl3 : ((data.drop 10000000).drop 10000000).length = 5000000 := by
    simp only [List.length_drop, hlen]
  have h3 : (data.drop 10000000).drop 10000000 ≠ [] := by
    rw [← List.length_pos, hl3]
    norm_num
  rw [chunksList_cons _ _ h3 (by norm_num)]
  have hl4 : (((data.drop 10000000).drop 10000000).drop 10000000).length = 0 := by
    simp only [List.length_drop, hlen]
  have h4 : ((data.drop 10000000).drop 10000000).drop 10000000 = [] :=
    List.length_eq_zero.mp hl4
  rw [h4, chunksList_nil]
  refine ⟨_, _, _, rfl, ?_, ?_, ?_⟩
  · simp only [List.length_take, hlen]; omega
  · simp only [List.length_take, hl2]; omega
  · simp only [List.length_take, hl3]; omega

/- ### Claim theorems -/

/-- C1: for every byte sequence `p` and every positive chunk size `s`,
reassembling the pieces produced by `SplitIntoChunks(p, s)` with
`ReassembleChunks` yields `p` exactly, byte for byte. -/
theorem chunk_roundtrip_C1 (hash : List Byte → String) (p : List Byte) (s : Nat)
    (hs : 1 ≤ s) (chunks : List (String × List Byte))
    (hashes : List (String × String))
    (hsplit : SplitIntoChunks hash p (s : Int) = .ok chunks hashes) :
    ReassembleChunks chunks = p := by
  rw [SplitIntoChunks_ok hash p s hs] at hsplit
  injection hsplit with h1 h2
  subst h1
  rw [ReassembleChunks_keyed, chunksList_join p s hs]

/-- Witness for C1 at `p = [1,2,3]`, `s = 2`, constant digest function. -/
theorem chunk_roundtrip_C1_witness :
    (1 : Nat) ≤ 2 ∧
    SplitIntoChunks (fun _ => "") [1, 2, 3] ((2 : Nat) : Int) =
      .ok [("1", [1, 2]), ("2", [3])] [("1", ""), ("2", "")] ∧
    ReassembleChunks [("1", [1, 2]), ("2", [3])] = [1, 2, 3] :=
  ⟨by norm_num, by decide,
    chunk_roundtrip_C1 (fun _ => "") [1, 2, 3] 2 (by norm_num)
      [("1", [1, 2]), ("2", [3])] [("1", ""), ("2", "")] (by decide)⟩

/-- C2: for every plaintext `p` and every valid 32-byte key, decrypting the
envelope produced by `EncryptData` returns `p`; the fresh random 12-byte nonce
of the encryption call is modeled as an input, and the statement holds for
every AEAD satisfying the Go GCM library contract. -/
theorem encrypt_roundtrip_C2 (G : AEAD) (p key nonce env : List Byte)
    (hkey : key.length = 32) (hnonce : nonce.length = 12)
    (henc : EncryptData G p key nonce = .ok env) :
    DecryptData G env key = .ok p := by
  have hok : keyOk key = true := by simp [keyOk, hkey]
  unfold EncryptData at henc
  simp only [hok, if_true] at henc
  injection henc with henv
  subst henv
  unfold DecryptData
  have hlen : (nonce ++ G.gcmSeal key nonce p).length = 28 + p.length := by
    rw [List.length_append, hnonce, G.gcmSeal_length]
    omega
  rw [if_neg (by omega)]
  simp only [hok, if_true]
  have htake : (nonce ++ G.gcmSeal key nonce p).take 12 = nonce := by
    rw [← hnonce, List.take_left]
  have hdrop : (nonce ++ G.gcmSeal key nonce p).drop 12 = G.gcmSeal key nonce p := by
    rw [← hnonce, List.drop_left]
  rw [htake, hdrop, G.gcmOpen_seal]

/-- Witness for C2 at `p = [1]`, the zero 32-byte key and zero 12-byte nonce,
with the concrete `padAEAD` instance of the AEAD contract. -/
theorem encrypt_roundtrip_C2_witness :
    (List.replicate 32 (0 : Byte)).length = 32 ∧
    (List.replicate 12 (0 : Byte)).length = 12 ∧
    EncryptData padAEAD [1] (List.replicate 32 0) (List.replicate 12 0) =
      .ok (List.replicate 12 0 ++ [1] ++ List.replicate 16 0) ∧
    DecryptData padAEAD (List.replicate 12 0 ++ [1] ++ List.replicate 16 0)
      (List.replicate 32 0) = .ok [1] :=
  ⟨by decide, by decide, rfl,
    encrypt_roundtrip_C2 padAEAD [1] (List.replicate 32 0) (List.replicate 12 0)
      (List.replicate 12 0 ++ [1] ++ List.replicate 16 0)
      (by decide) (by decide) rfl⟩

/-- C3: `SplitIntoChunks` assigns identifiers 1, 2, ... in strictly
increasing order walking the payload left to right in `s`-sized windows,
every piece except possibly the last has length exactly `s`, the last piece
is non-empty and no larger than `s`, exactly one digest is produced per
piece, an empty payload yields the empty mapping, and a 25,000,000-byte
payload with `s = 10,000,000` yields exactly 3 pieces of sizes 10,000,000,
10,000,000 and 5,000,000 with 3 digests. -/
theorem split_spec_C3 (hash : List Byte → String) (p : List Byte) (s : Nat)
    (hs : 1 ≤ s) (chunks : List (String × List Byte))
    (hashes : List (String × String))
    (hsplit : SplitIntoChunks hash p (s : Int) = .ok chunks hashes) :
    SplitSpec s p chunks hashes := by
  rw [SplitIntoChunks_ok hash p s hs] at hsplit
  injection hsplit with h1 h2
  subst h1
  subst h2
  refine ⟨?_, ?_, ?_, ?_, ?_, ?_⟩
  · rw [keyed_map_fst, keyed_length]
    apply List.map_congr_left
    intro t _
    congr 1
    omega
  · rw [keyed_map_fst, keyed_map_fst, List.length_map]
  · intro e he
    have h2 : e.2 ∈ ((keyed 1 (chunksList p s)).dropLast).map Prod.snd :=
      List.mem_map_of_mem _ he
    rw [List.map_dropLast, keyed_map_snd] at h2
    exact chunksList_dropLast p s hs e.2 h2
  · intro e he
    have h2 : (chunksList p s).getLast? = some e.2 := by
      rw [← keyed_map_snd (chunksList p s) 1, List.getLast?_map, he]
      rfl
    exact chunksList_mem p s hs e.2 (mem_of_getLast?_eq h2)
  · intro hp
    subst hp
    rw [chunksList_nil]
    constructor <;> rfl
  · intro hp hs10
    subst hs10
    obtain ⟨t1, t2, t3, hcl3, hl1, hl2, hl3⟩ := chunksList_25MB p hp
    refine ⟨t1, t2, t3, ?_, hl1, hl2, hl3, ?_⟩
    · rw [hcl3]
      simp only [keyed]
    · rw [keyed_length, List.length_map, hcl3]
      rfl

/-- Witness for C3 at `p = [1,2,3]`, `s = 2`, constant digest function. -/
theorem split_spec_C3_witness :
    (1 : Nat) ≤ 2 ∧
    SplitIntoChunks (fun _ => "") [1, 2, 3] ((2 : Nat) : Int) =
      .ok [("1", [1, 2]), ("2", [3])] [("1", ""), ("2", "")] ∧
    SplitSpec 2 [1, 2, 3] [("1", [1, 2]), ("2", [3])] [("1", ""), ("2", "")] :=
  ⟨by norm_num, by decide,
    split_spec_C3 (fun _ => "") [1, 2, 3] 2 (by norm_num)
      [("1", [1, 2]), ("2", [3])] [("1", ""), ("2", "")] (by decide)⟩

/-- C4: decrypting any envelope shorter than 12 bytes fails with the
malformed-envelope error without attempting AEAD verification (the result is
the same for every AEAD); for envelopes of length 12 or more (and an
AES-acceptable key), the first 12 bytes are the nonce and the remainder the
ciphertext plus tag handed to the AEAD. -/
theorem decrypt_minlength_C4 (G : AEAD) (env key : List Byte) :
    (env.length < 12 → DecryptData G env key = .error .malformedEnvelope)
    ∧ (12 ≤ env.length → keyOk key = true →
        ∃ nonce ct, env = nonce ++ ct ∧ nonce.length = 12 ∧
          DecryptData G env key =
            (G.gcmOpen key nonce ct).elim (.error .authFailed) .ok) := by
  constructor
  · intro hlt
    unfold DecryptData
    rw [if_pos hlt]
  · intro hge hok
    refine ⟨env.take 12, env.drop 12, (List.take_append_drop 12 env).symm, ?_, ?_⟩
    · rw [List.length_take]
      omega
    · unfold DecryptData
      rw [if_neg (by omega)]
      simp only [hok, if_true]
      cases hcase : G.gcmOpen key (env.take 12) (env.drop 12) <;>
        simp [Option.elim]

/-- Witness for C4: a 1-byte envelope is rejected as malformed, and a 16-byte
envelope splits into a 12-byte nonce and 4 remaining bytes. -/
theorem decrypt_minlength_C4_witness :
    (([0] : List Byte).length < 12 ∧
      DecryptData padAEAD [0] [] = .error .malformedEnvelope) ∧
    (12 ≤ (List.replicate 16 (0 : Byte)).length ∧
      keyOk (List.replicate 32 0) = true ∧
      ∃ nonce ct, List.replicate 16 (0 : Byte) = nonce ++ ct ∧
        nonce.length = 12 ∧
        DecryptData padAEAD (List.replicate 16 0) (List.replicate 32 0) =
          (padAEAD.gcmOpen (List.replicate 32 0) nonce ct).elim
            (.error .authFailed) .ok) :=
  ⟨⟨by decide, (decrypt_minlength_C4 padAEAD [0] []).1 (by decide)⟩,
   ⟨by decide, by decide,
     (decrypt_minlength_C4 padAEAD (List.replicate 16 0) (List.replicate 32 0)).2
       (by decide) (by decide)⟩⟩

/-- Counterexample to C5 as stated: with the empty payload and chunk size 0
(a non-positive size), `SplitIntoChunks` returns normally with the empty
result rather than failing fast with any `InvalidChunkSize` error (no such
error exists in the code). -/
theorem split_invalid_size_C5_counterexample :
    SplitIntoChunks (fun _ => "") [] 0 = .ok [] [] := rfl

/-- C5 amended: the code has no `InvalidChunkSize` failure and does not fail
fast. For a non-positive chunk size: an empty payload returns the empty
result normally; a non-empty payload with chunk size 0 leaves the loop
running at every fuel bound (the Go loop never terminates); a negative chunk
size panics on the first slice expression. -/
theorem split_invalid_size_C5 (hash : List Byte → String) (data : List Byte)
    (sz : Int) :
    (SplitIntoChunks hash [] sz = .ok [] [])
    ∧ (data ≠ [] → ∀ (fuel c : Nat) accC accH,
        splitLoop hash data 0 fuel 0 c accC accH = .fuelOut)
    ∧ (data ≠ [] → sz < 0 → SplitIntoChunks hash data sz = .panics) := by
  refine ⟨?_, ?_, ?_⟩
  · rfl
  · intro hd fuel c accC accH
    exact splitLoop_zero_diverges hash data fuel 0 c accC accH le_rfl
      (by exact_mod_cast List.length_pos.mpr hd)
  · intro hd hneg
    unfold SplitIntoChunks
    exact splitLoop_neg_panics hash data sz hneg hd data.length [] [] 1

/-- Witness for C5 amended at a 1-byte payload. -/
theorem split_invalid_size_C5_witness :
    ([5] : List Byte) ≠ [] ∧ (-1 : Int) < 0 ∧
    splitLoop (fun _ => "") [5] 0 7 0 1 [] [] = .fuelOut ∧
    SplitIntoChunks (fun _ => "") [5] (-1) = .panics :=
  ⟨by decide, by decide,
    (split_invalid_size_C5 (fun _ => "") [5] (-1)).2.1 (by decide) 7 1 [] [],
    (split_invalid_size_C5 (fun _ => "") [5] (-1)).2.2 (by decide) (by decide)⟩

/-- C6 (divergence from the claim): the CLI download path performs no
manifest validation at all. A manifest with `chunked = true` and an empty
chunk-reference mapping is not rejected as malformed: zero fetches happen
(the fetch oracle here fails every reference, and no fetch error surfaces)
and the download succeeds with an empty payload. With `encrypted = true` and
empty key material as well, the failure surfaced is a decryption error after
the (empty) fetch phase, not a manifest rejection before it. -/
theorem download_no_validation_C6 :
    runDownload padAEAD (fun _ => "") (fun _ => some []) (fun _ => none)
      ⟨"f", false, "", true, "", [], [], ""⟩ = .ok []
    ∧ runDownload padAEAD (fun _ => "") (fun _ => some []) (fun _ => none)
      ⟨"f", true, "", true, "", [], [], ""⟩ = .error .decryptFailed :=
  ⟨rfl, rfl⟩

/-- C7: `ReassembleChunks` orders the piece keys ascending numerically, not
lexicographically ("10" sorts after "9"), and the result depends only on the
key-to-bytes mapping: two maps holding the same entries in any insertion
order (distinct keys, as in a Go map) reassemble identically. -/
theorem reassemble_order_C7 :
    (∀ m1 m2 : List (String × List Byte), m1.Perm m2 →
      (m1.map Prod.fst).Nodup → ReassembleChunks m1 = ReassembleChunks m2)
    ∧ ReassembleChunks [("10", [7]), ("9", [5])] = [5, 7] :=
  ⟨ReassembleChunks_perm, by decide⟩

/-- Witness for C7: a two-entry map and its reversed insertion order. -/
theorem reassemble_order_C7_witness :
    ([("1", [1]), ("2", [2])] : List (String × List Byte)).Perm
      [("2", [2]), ("1", [1])] ∧
    (([("1", [1]), ("2", [2])] : List (String × List Byte)).map Prod.fst).Nodup ∧
    ReassembleChunks [("1", [1]), ("2", [2])] =
      ReassembleChunks [("2", [2]), ("1", [1])] :=
  ⟨by decide, by decide, reassemble_order_C7.1 _ _ (by decide) (by decide)⟩

/-- Counterexample to C8 as stated: a manifest value with `encrypted = false`
but a nonempty key string still serializes the `key` field — absence of an
optional field follows value emptiness (Go `omitempty`), not the
`encrypted`/`chunked` flags. -/
theorem manifest_omitempty_C8_counterexample :
    (Metadata.mk "f" false "k" false "" [] [] "").encrypted = false ∧
    ("key", JVal.jstr "k") ∈
      marshalMetadata (Metadata.mk "f" false "k" false "" [] [] "") :=
  ⟨rfl, by decide⟩

/-- C8 amended: serialization round-trips for every manifest value, and an
optional field is absent from the serialized form exactly when its value is
empty (empty string or empty mapping) — which yields the claimed flag-based
absences precisely for manifests as the code constructs them (key set only
when encrypting, chunk maps only when chunking, file fields only when not
chunking). -/
theorem manifest_roundtrip_C8 (m : Metadata) :
    unmarshalMetadata (marshalMetadata m) = m
    ∧ (("key" ∈ (marshalMetadata m).map Prod.fst) ↔ m.key ≠ "")
    ∧ (("chunk_ids" ∈ (marshalMetadata m).map Prod.fst) ↔ m.chunkIDs ≠ [])
    ∧ (("chunk_hashes" ∈ (marshalMetadata m).map Prod.fst) ↔ m.chunkHashes ≠ [])
    ∧ (("file_id" ∈ (marshalMetadata m).map Prod.fst) ↔ m.fileID ≠ "")
    ∧ (("file_hash" ∈ (marshalMetadata m).map Prod.fst) ↔ m.fileHash ≠ "") :=
  ⟨marshal_roundtrip m, marshal_key_mem m, marshal_chunkIDs_mem m,
    marshal_chunkHashes_mem m, marshal_fileID_mem m, marshal_fileHash_mem m⟩

/-- C9: a successful `EncryptData` call with its 12-byte nonce returns an
envelope of exactly `len(p) + 28` bytes (12-byte nonce, then ciphertext and
the 16-byte GCM tag); consequently every well-formed envelope is at least 28
bytes long, not merely 12. -/
theorem envelope_length_C9 (G : AEAD) (p key nonce env : List Byte)
    (hnonce : nonce.length = 12)
    (henc : EncryptData G p key nonce = .ok env) :
    env.length = p.length + 28 ∧ 28 ≤ env.length := by
  unfold EncryptData at henc
  cases hko : keyOk key with
  | false =>
    rw [hko] at henc
    simp at henc
  | true =>
    rw [hko] at henc
    simp only [if_true] at henc
    injection henc with henv
    subst henv
    constructor
    · rw [List.length_append, hnonce, G.gcmSeal_length]
      omega
    · rw [List.length_append, hnonce, G.gcmSeal_length]
      omega

/-- Witness for C9 at a 1-byte plaintext: the envelope has 29 = 1 + 28
bytes. -/
theorem envelope_length_C9_witness :
    (List.replicate 12 (0 : Byte)).length = 12 ∧
    ((List.replicate 12 0 ++ [1] ++ List.replicate 16 0 : List Byte).length =
        ([1] : List Byte).length + 28 ∧
      28 ≤ (List.replicate 12 0 ++ [1] ++ List.replicate 16 0 : List Byte).length) :=
  ⟨by decide,
    envelope_length_C9 padAEAD [1] (List.replicate 32 0) (List.replicate 12 0)
      (List.replicate 12 0 ++ [1] ++ List.replicate 16 0) (by decide) rfl⟩

/-- C10: `ReassembleChunks` reports no error on malformed keys: the bytes of
an entry whose key is not the canonical decimal form of its parsed value
never reach the output (replacing them changes nothing), a map containing
both "1" and "01" emits the bytes stored under "1" twice, and a non-numeric
key such as "abc" contributes nothing (it parses to 0, errors ignored, and
the fresh lookup of "0" finds no entry). -/
theorem reassemble_malformed_keys_C10 :
    (∀ (k : String) (v v' : List Byte), intToString (goAtoi k) ≠ k →
      ∀ pre post, ReassembleChunks (pre ++ (k, v) :: post) =
        ReassembleChunks (pre ++ (k, v') :: post))
    ∧ ReassembleChunks [("1", [7]), ("01", [9])] = [7, 7]
    ∧ ReassembleChunks [("abc", [9])] = [] :=
  ⟨ReassembleChunks_nonCanonical, by decide, by decide⟩

/-- Witness for C10: replacing the bytes under the non-canonical key "01"
does not change the reassembled output. -/
theorem reassemble_malformed_keys_C10_witness :
    intToString (goAtoi "01") ≠ "01" ∧
    ReassembleChunks [("1", [7]), ("01", [9])] =
      ReassembleChunks [("1", [7]), ("01", [42])] :=
  ⟨by decide,
    reassemble_malformed_keys_C10.1 "01" [9] [42] (by decide) [("1", [7])] []⟩
